import Mathlib

/-!
Verification of the line-token core (`src/vs/editor/common/core/lineTokens.ts`).

The token buffer stores one line of text plus a flat array of unsigned
integers, two per token: element `2i` is the end offset of token `i`,
element `2i+1` its packed metadata word.  JS `Uint32Array` reads out of
range yield `undefined`; we model an array read as an `Option Nat`
(`none` standing for `undefined`) and model the backing array as a
`List Nat`.
-/

namespace VSCode

/-- The token buffer (`class LineTokens`): the packed `Uint32Array` and the
line text.  `tokensCount` and `textLength` are derived exactly as in the
constructor (`tokens.length >>> 1` and `text.length`). -/
structure LineTokens where
  tokens : List Nat
  text : String
deriving DecidableEq

def LineTokens.tokensCount (b : LineTokens) : Nat := b.tokens.length / 2

def LineTokens.textLength (b : LineTokens) : Nat := b.text.length

/-- A JS `Uint32Array` read `arr[i]` with a possibly negative index:
`undefined` (here `none`) when out of range. -/
def uget (l : List Nat) (i : Int) : Option Nat :=
  if 0 ≤ i then l[i.toNat]? else none

/-- `LineTokens.getStartOffset`: `tokens[(tokenIndex - 1) << 1]` when
`tokenIndex > 0`, else `0`. -/
def LineTokens.getStartOffset (b : LineTokens) (tokenIndex : Int) : Option Nat :=
  if 0 < tokenIndex then uget b.tokens (2 * (tokenIndex - 1)) else some 0

/-- `LineTokens.getEndOffset`: `tokens[tokenIndex << 1]`. -/
def LineTokens.getEndOffset (b : LineTokens) (tokenIndex : Int) : Option Nat :=
  uget b.tokens (2 * tokenIndex)

/-- `LineTokens.equals`: text, then token count, then an element-for-element
loop over `this._tokens.length` indices; a read past the end of `other`
yields `undefined`, which compares unequal to every number. -/
def LineTokens.equals (a b : LineTokens) : Bool :=
  if a.text = b.text then
    if a.tokensCount = b.tokensCount then
      (List.range a.tokens.length).all fun i => a.tokens[i]? == b.tokens[i]?
    else false
  else false

/-- The cursor (`class LineTokensIterator`): a reference to the source
buffer, the token count fixed at construction, and the cached fields set by
`_set` (token index, metadata word, start and end offsets). -/
structure LineTokensIterator where
  source : LineTokens
  tokenCount : Nat
  tokenIndex : Int
  metadata : Option Nat
  startOffset : Option Nat
  endOffset : Option Nat
deriving DecidableEq

def LineTokensIterator.hasPrev (it : LineTokensIterator) : Bool :=
  0 < it.tokenIndex

def LineTokensIterator.hasNext (it : LineTokensIterator) : Bool :=
  it.tokenIndex + 1 < (it.tokenCount : Int)

/-- `LineTokens.tokenAt` without a destination: builds a fresh cursor whose
cached fields are read from the packed array. -/
def LineTokens.tokenAt (b : LineTokens) (tokenIndex : Int) : LineTokensIterator :=
  { source := b
    tokenCount := b.tokensCount
    tokenIndex := tokenIndex
    metadata := uget b.tokens (2 * tokenIndex + 1)
    startOffset := if 0 < tokenIndex then uget b.tokens (2 * (tokenIndex - 1)) else some 0
    endOffset := uget b.tokens (2 * tokenIndex) }

/-- `LineTokens.tokenAt` with a destination cursor: `dest._set(...)` updates
the destination's cached fields in place, leaving its source reference and
its token count untouched. -/
def LineTokens.tokenAtInto (b : LineTokens) (tokenIndex : Int)
    (dest : LineTokensIterator) : LineTokensIterator :=
  { dest with
    tokenIndex := tokenIndex
    metadata := uget b.tokens (2 * tokenIndex + 1)
    startOffset := if 0 < tokenIndex then uget b.tokens (2 * (tokenIndex - 1)) else some 0
    endOffset := uget b.tokens (2 * tokenIndex) }

/-- `LineTokensIterator.prev`: mutation is made explicit, the second
component being the cursor's state after the call and the first the returned
value (`none` for JS `null`). -/
def LineTokensIterator.prev (it : LineTokensIterator) :
    Option LineTokensIterator × LineTokensIterator :=
  if it.hasPrev then
    let u := it.source.tokenAtInto (it.tokenIndex - 1) it
    (some u, u)
  else (none, it)

/-- `LineTokensIterator.next`, with the same state-passing convention as
`prev`. -/
def LineTokensIterator.next (it : LineTokensIterator) :
    Option LineTokensIterator × LineTokensIterator :=
  if it.hasNext then
    let u := it.source.tokenAtInto (it.tokenIndex + 1) it
    (some u, u)
  else (none, it)

/-- `LineTokensIterator.clone`: a new cursor with the same source, count and
cached fields. -/
def LineTokensIterator.clone (it : LineTokensIterator) : LineTokensIterator :=
  { source := it.source
    tokenCount := it.tokenCount
    tokenIndex := it.tokenIndex
    metadata := it.metadata
    startOffset := it.startOffset
    endOffset := it.endOffset }

/-- `LineTokens.firstToken`: `null` when the line text is empty, else a
cursor at index 0. -/
def LineTokens.firstToken (b : LineTokens) : Option LineTokensIterator :=
  if b.textLength = 0 then none else some (b.tokenAt 0)

/-- `LineTokens.lastToken`: `null` when the line text is empty, else a
cursor at index `tokensCount - 1` (computed in JS arithmetic, hence `-1`
for an empty token array). -/
def LineTokens.lastToken (b : LineTokens) : Option LineTokensIterator :=
  if b.textLength = 0 then none else some (b.tokenAt ((b.tokensCount : Int) - 1))

/-- A store of cursor objects: JS object identity is modelled by an index
into the store, so that aliasing between cursors is expressible. -/
def cloneRef (s : List LineTokensIterator) (r : Nat) :
    Nat × List LineTokensIterator :=
  match s[r]? with
  | some it => (s.length, s ++ [it.clone])
  | none => (r, s)

/-- `next()` called on the cursor object at reference `r`: the cell is
updated in place when the cursor moves. -/
def nextRef (s : List LineTokensIterator) (r : Nat) :
    Option Nat × List LineTokensIterator :=
  match s[r]? with
  | some it =>
    match it.next with
    | (some u, _) => (some r, s.set r u)
    | (none, _) => (none, s)
  | none => (none, s)

/-- `prev()` called on the cursor object at reference `r`. -/
def prevRef (s : List LineTokensIterator) (r : Nat) :
    Option Nat × List LineTokensIterator :=
  match s[r]? with
  | some it =>
    match it.prev with
    | (some u, _) => (some r, s.set r u)
    | (none, _) => (none, s)
  | none => (none, s)

theorem clone_eq (it : LineTokensIterator) : it.clone = it := rfl

/-- C4: for every token buffer, `getStartOffset 0 = 0`, and for every index
`i` with `1 ≤ i < N`, `getStartOffset i = getEndOffset (i-1)`: adjacent
tokens' ranges are contiguous, both accessors reading slot `2(i-1)` of the
shared packed array. -/
theorem getStartOffset_contiguity (b : LineTokens) :
    b.getStartOffset 0 = some 0 ∧
    ∀ i : Int, 1 ≤ i → i < (b.tokensCount : Int) →
      b.getStartOffset i = b.getEndOffset (i - 1) := by
  constructor
  · simp [LineTokens.getStartOffset]
  · intro i h1 _
    unfold LineTokens.getStartOffset LineTokens.getEndOffset
    rw [if_pos (by omega)]

theorem getStartOffset_contiguity_witness :
    (1 : Int) ≤ 1 ∧ (1 : Int) < ((LineTokens.mk [3, 100, 7, 200, 9, 300] "abcdefghi").tokensCount : Int) ∧
    (LineTokens.mk [3, 100, 7, 200, 9, 300] "abcdefghi").getStartOffset 1 =
      (LineTokens.mk [3, 100, 7, 200, 9, 300] "abcdefghi").getEndOffset (1 - 1) :=
  ⟨by decide, by decide,
    (getStartOffset_contiguity (LineTokens.mk [3, 100, 7, 200, 9, 300] "abcdefghi")).2
      1 (by decide) (by decide)⟩

/-- C10: `getStartOffset tokenIndex` returns 0 for every `tokenIndex ≤ 0`,
negative indices included: the guard is `tokenIndex > 0`, so a non-positive
index silently takes the `return 0` branch. -/
theorem getStartOffset_nonpos (b : LineTokens) (i : Int) (h : i ≤ 0) :
    b.getStartOffset i = some 0 := by
  unfold LineTokens.getStartOffset
  rw [if_neg (by omega)]

theorem getStartOffset_nonpos_witness :
    (-5 : Int) ≤ 0 ∧ (LineTokens.mk [3, 100] "abc").getStartOffset (-5) = some 0 :=
  ⟨by decide, getStartOffset_nonpos (LineTokens.mk [3, 100] "abc") (-5) (by decide)⟩

/-- C3: on buffers whose packed arrays have even length (the shape the data
model guarantees), `equals` is true exactly when the texts agree and the
packed arrays agree element for element; it is reflexive and symmetric. -/
theorem equals_spec (a b : LineTokens)
    (ha : a.tokens.length % 2 = 0) (hb : b.tokens.length % 2 = 0) :
    (a.equals b = true ↔ a.text = b.text ∧ a.tokens = b.tokens) ∧
    a.equals a = true ∧
    a.equals b = b.equals a := by
  have key : ∀ x y : LineTokens, x.tokens.length % 2 = 0 → y.tokens.length % 2 = 0 →
      (x.equals y = true ↔ x.text = y.text ∧ x.tokens = y.tokens) := by
    intro x y hx hy
    unfold LineTokens.equals
    constructor
    · intro h
      by_cases ht : x.text = y.text
      · rw [if_pos ht] at h
        by_cases hc : x.tokensCount = y.tokensCount
        · rw [if_pos hc] at h
          refine ⟨ht, ?_⟩
          have hlen : x.tokens.length = y.tokens.length := by
            unfold LineTokens.tokensCount at hc; omega
          apply List.ext_getElem?
          intro i
          by_cases hi : i < x.tokens.length
          · have hall := List.all_eq_true.mp h i (List.mem_range.mpr hi)
            exact eq_of_beq hall
          · rw [List.getElem?_eq_none (by omega), List.getElem?_eq_none (by omega)]
        · rw [if_neg hc] at h
          exact absurd h (by simp)
      · rw [if_neg ht] at h
        exact absurd h (by simp)
    · rintro ⟨ht, htok⟩
      rw [if_pos ht, if_pos (by unfold LineTokens.tokensCount; rw [htok])]
      rw [List.all_eq_true]
      intro i _
      rw [htok]
      exact beq_self_eq_true _
  refine ⟨key a b ha hb, (key a a ha ha).mpr ⟨rfl, rfl⟩, ?_⟩
  by_cases hab : a.text = b.text ∧ a.tokens = b.tokens
  · rw [(key a b ha hb).mpr hab, (key b a hb ha).mpr ⟨hab.1.symm, hab.2.symm⟩]
  · have h1 : a.equals b = false := by
      rw [Bool.eq_false_iff]
      intro h
      exact hab ((key a b ha hb).mp h)
    have h2 : b.equals a = false := by
      rw [Bool.eq_false_iff]
      intro h
      obtain ⟨u, v⟩ := (key b a hb ha).mp h
      exact hab ⟨u.symm, v.symm⟩
    rw [h1, h2]

theorem equals_spec_witness :
    ((LineTokens.mk [5, 100] "ab").tokens.length % 2 = 0) ∧
    ((LineTokens.mk [5, 101] "ab").tokens.length % 2 = 0) ∧
    (((LineTokens.mk [5, 100] "ab").equals (LineTokens.mk [5, 101] "ab") = true ↔
        (LineTokens.mk [5, 100] "ab").text = (LineTokens.mk [5, 101] "ab").text ∧
        (LineTokens.mk [5, 100] "ab").tokens = (LineTokens.mk [5, 101] "ab").tokens) ∧
      (LineTokens.mk [5, 100] "ab").equals (LineTokens.mk [5, 100] "ab") = true ∧
      (LineTokens.mk [5, 100] "ab").equals (LineTokens.mk [5, 101] "ab") =
        (LineTokens.mk [5, 101] "ab").equals (LineTokens.mk [5, 100] "ab")) :=
  ⟨by decide, by decide,
    equals_spec (LineTokens.mk [5, 100] "ab") (LineTokens.mk [5, 101] "ab")
      (by decide) (by decide)⟩

/-- C5: `firstToken` and `lastToken` return `none` exactly when the line
text is empty, whatever the packed array holds; on a non-empty line they
return cursors at token index 0 and `tokensCount - 1`. -/
theorem firstToken_lastToken_spec (b : LineTokens) :
    (b.firstToken = none ↔ b.textLength = 0) ∧
    (b.lastToken = none ↔ b.textLength = 0) ∧
    (b.textLength ≠ 0 →
      Option.map (fun it => it.tokenIndex) b.firstToken = some 0 ∧
      Option.map (fun it => it.tokenIndex) b.lastToken =
        some ((b.tokensCount : Int) - 1)) := by
  unfold LineTokens.firstToken LineTokens.lastToken
  by_cases h : b.textLength = 0 <;>
    simp [h, LineTokens.tokenAt]

theorem firstToken_lastToken_spec_witness :
    (LineTokens.mk [3, 7] "abc").textLength ≠ 0 ∧
    (Option.map (fun it => it.tokenIndex) (LineTokens.mk [3, 7] "abc").firstToken = some 0 ∧
      Option.map (fun it => it.tokenIndex) (LineTokens.mk [3, 7] "abc").lastToken =
        some (((LineTokens.mk [3, 7] "abc").tokensCount : Int) - 1)) :=
  ⟨by decide, (firstToken_lastToken_spec (LineTokens.mk [3, 7] "abc")).2.2 (by decide)⟩

/-- C6: `next` with `hasNext` false (and `prev` with `hasPrev` false)
returns `null` and leaves the cursor's state unchanged; when the guard
holds, the call moves the cursor by one index and refreshes the cached
fields from the buffer via `tokenAt`/`_set`. -/
theorem next_prev_guard_spec (it : LineTokensIterator) :
    (it.hasNext = false → it.next = (none, it)) ∧
    (it.hasPrev = false → it.prev = (none, it)) ∧
    (it.hasNext = true →
      it.next = (some (it.source.tokenAtInto (it.tokenIndex + 1) it),
        it.source.tokenAtInto (it.tokenIndex + 1) it)) ∧
    (it.hasPrev = true →
      it.prev = (some (it.source.tokenAtInto (it.tokenIndex - 1) it),
        it.source.tokenAtInto (it.tokenIndex - 1) it)) := by
  unfold LineTokensIterator.next LineTokensIterator.prev
  refine ⟨?_, ?_, ?_, ?_⟩ <;> intro h <;> simp [h]

theorem next_prev_guard_spec_witness :
    ((LineTokens.mk [3, 100, 7, 200] "abcdefg").tokenAt 1).hasNext = false ∧
    ((LineTokens.mk [3, 100, 7, 200] "abcdefg").tokenAt 1).next =
      (none, (LineTokens.mk [3, 100, 7, 200] "abcdefg").tokenAt 1) :=
  ⟨by decide,
    (next_prev_guard_spec ((LineTokens.mk [3, 100, 7, 200] "abcdefg").tokenAt 1)).1 (by decide)⟩

/-- C7: `clone` yields an independent cursor at the same position: the
fresh reference is distinct from the original, holds an equal cursor value,
and advancing the clone (by `next` or `prev`) leaves the original cursor
object — all its cached fields — unchanged in the store. -/
theorem clone_independent (s : List LineTokensIterator) (r : Nat) (h : r < s.length) :
    (cloneRef s r).1 ≠ r ∧
    ((cloneRef s r).2)[(cloneRef s r).1]? = s[r]? ∧
    ((nextRef (cloneRef s r).2 (cloneRef s r).1).2)[r]? = s[r]? ∧
    ((prevRef (cloneRef s r).2 (cloneRef s r).1).2)[r]? = s[r]? := by
  obtain ⟨it, hit⟩ : ∃ it, s[r]? = some it := by
    rw [List.getElem?_eq_getElem h]
    exact ⟨_, rfl⟩
  have hclone : cloneRef s r = (s.length, s ++ [it]) := by
    rw [cloneRef, hit]
    rfl
  have hne : s.length ≠ r := by omega
  have happ_at_new : (s ++ [it])[s.length]? = some it := by
    rw [List.getElem?_append_right (Nat.le_refl _)]
    simp
  have happ_at_r : (s ++ [it])[r]? = s[r]? := by
    rw [List.getElem?_append]
    rw [if_pos h]
  have hset : ∀ u : LineTokensIterator, ((s ++ [it]).set s.length u)[r]? = s[r]? := by
    intro u
    rw [List.getElem?_set_ne hne, happ_at_r]
  have hnextsnd : (nextRef (s ++ [it]) s.length).2 = s ++ [it] ∨
      ∃ u, (nextRef (s ++ [it]) s.length).2 = (s ++ [it]).set s.length u := by
    unfold nextRef
    rw [happ_at_new]
    rcases hn : it.next with ⟨u, st⟩
    cases u with
    | none => left; simp [hn]
    | some v => right; exact ⟨v, by simp [hn]⟩
  have hprevsnd : (prevRef (s ++ [it]) s.length).2 = s ++ [it] ∨
      ∃ u, (prevRef (s ++ [it]) s.length).2 = (s ++ [it]).set s.length u := by
    unfold prevRef
    rw [happ_at_new]
    rcases hn : it.prev with ⟨u, st⟩
    cases u with
    | none => left; simp [hn]
    | some v => right; exact ⟨v, by simp [hn]⟩
  refine ⟨by rw [hclone]; exact hne, by rw [hclone, happ_at_new, hit], ?_, ?_⟩
  · rw [hclone]
    rcases hnextsnd with heq | ⟨u, heq⟩
    · rw [heq, happ_at_r]
    · rw [heq, hset u]
  · rw [hclone]
    rcases hprevsnd with heq | ⟨u, heq⟩
    · rw [heq, happ_at_r]
    · rw [heq, hset u]

theorem clone_independent_witness :
    (0 : Nat) < [(LineTokens.mk [3, 100, 7, 200] "abcdefg").tokenAt 0].length ∧
    ((cloneRef [(LineTokens.mk [3, 100, 7, 200] "abcdefg").tokenAt 0] 0).1 ≠ 0 ∧
      ((cloneRef [(LineTokens.mk [3, 100, 7, 200] "abcdefg").tokenAt 0] 0).2)[(cloneRef [(LineTokens.mk [3, 100, 7, 200] "abcdefg").tokenAt 0] 0).1]? =
        [(LineTokens.mk [3, 100, 7, 200] "abcdefg").tokenAt 0][0]? ∧
      ((nextRef (cloneRef [(LineTokens.mk [3, 100, 7, 200] "abcdefg").tokenAt 0] 0).2
          (cloneRef [(LineTokens.mk [3, 100, 7, 200] "abcdefg").tokenAt 0] 0).1).2)[0]? =
        [(LineTokens.mk [3, 100, 7, 200] "abcdefg").tokenAt 0][0]? ∧
      ((prevRef (cloneRef [(LineTokens.mk [3, 100, 7, 200] "abcdefg").tokenAt 0] 0).2
          (cloneRef [(LineTokens.mk [3, 100, 7, 200] "abcdefg").tokenAt 0] 0).1).2)[0]? =
        [(LineTokens.mk [3, 100, 7, 200] "abcdefg").tokenAt 0][0]?) :=
  ⟨by decide, clone_independent [(LineTokens.mk [3, 100, 7, 200] "abcdefg").tokenAt 0] 0 (by decide)⟩

/-- The even slots of the packed array: slot `2i` for each token `i`
(end offsets in a constructed buffer). -/
def evenSlots : List Nat → List Nat
  | [] => []
  | [x] => [x]
  | x :: _ :: rest => x :: evenSlots rest

theorem evenSlots_getElem? : ∀ (l : List Nat) (i : Nat), (evenSlots l)[i]? = l[2 * i]?
  | [], i => by simp [evenSlots]
  | [x], i => by
    cases i with
    | zero => simp [evenSlots]
    | succ n =>
      have h2 : 2 * (n + 1) = 2 * n + 1 + 1 := by ring
      rw [h2]
      simp [evenSlots]
  | x :: y :: rest, i => by
    cases i with
    | zero => simp [evenSlots]
    | succ n =>
      have ih := evenSlots_getElem? rest n
      have h2 : 2 * (n + 1) = 2 * n + 1 + 1 := by ring
      rw [h2]
      simpa [evenSlots] using ih

theorem evenSlots_length : ∀ l : List Nat, (evenSlots l).length = (l.length + 1) / 2
  | [] => rfl
  | [_] => by simp [evenSlots]
  | _ :: _ :: rest => by
    have ih := evenSlots_length rest
    simp only [evenSlots, List.length_cons, ih]
    omega

/-- The loop of `LineTokens.convertToEndOffset`: for each `tokenIndex` below
`k`, slot `2·tokenIndex` is overwritten with the current value of slot
`2·(tokenIndex+1)`.  An out-of-range `Uint32Array` read is `undefined`,
which the subsequent store coerces to 0, hence `getD _ 0`. -/
def convertLoop (tokens : List Nat) (k : Nat) : List Nat :=
  (List.range k).foldl (fun t ti => t.set (2 * ti) (t.getD (2 * (ti + 1)) 0)) tokens

/-- `LineTokens.convertToEndOffset` (named `convertLengthsToEndOffsets` in
the spec): runs the loop for `tokenIndex` in `[0, tokenCount - 1)`, then
writes `lineTextLength` into the last token's even slot. -/
def convertToEndOffset (tokens : List Nat) (lineTextLength : Nat) : List Nat :=
  (convertLoop tokens (tokens.length / 2 - 1)).set
    (2 * (tokens.length / 2 - 1)) lineTextLength

theorem convertLoop_succ (tokens : List Nat) (n : Nat) :
    convertLoop tokens (n + 1) =
      (convertLoop tokens n).set (2 * n) ((convertLoop tokens n).getD (2 * (n + 1)) 0) := by
  unfold convertLoop
  rw [List.range_succ, List.foldl_append]
  rfl

theorem convertLoop_getElem? (tokens : List Nat) (N : Nat) (hlen : tokens.length = 2 * N) :
    ∀ k, k ≤ N - 1 → ∀ j, (convertLoop tokens k)[j]? =
      if j % 2 = 0 ∧ j < 2 * k then tokens[j + 2]? else tokens[j]? := by
  intro k
  induction k with
  | zero =>
    intro _ j
    rw [if_neg (by omega)]
    rfl
  | succ n ih =>
    intro hk j
    have ihn := ih (by omega)
    have hlooplen : (convertLoop tokens n).length = tokens.length := by
      have : ∀ m, (convertLoop tokens m).length = tokens.length := by
        intro m
        induction m with
        | zero => rfl
        | succ p ihp => rw [convertLoop_succ, List.length_set, ihp]
      exact this n
    rw [convertLoop_succ]
    have hread : (convertLoop tokens n).getD (2 * (n + 1)) 0 = tokens.getD (2 * (n + 1)) 0 := by
      rw [List.getD_eq_getElem?_getD, List.getD_eq_getElem?_getD, ihn (2 * (n + 1)),
        if_neg (by omega)]
    by_cases hj : j = 2 * n
    · subst hj
      rw [List.getElem?_set_self (by omega), hread, if_pos ⟨by omega, by omega⟩,
        List.getD_eq_getElem?_getD]
      have hin : 2 * n + 2 < tokens.length := by omega
      have h2 : 2 * (n + 1) = 2 * n + 2 := by ring
      rw [h2, List.getElem?_eq_getElem hin]
      rfl
    · rw [List.getElem?_set_ne (by omega), ihn j]
      by_cases hcond : j % 2 = 0 ∧ j < 2 * n
      · rw [if_pos hcond, if_pos ⟨hcond.1, by omega⟩]
      · rw [if_neg hcond, if_neg (by omega)]

/-- C1 (counterexample): on even slots holding the token lengths
`[3, 4, 2]` with line text length 9, the conversion leaves even slots
`[4, 2, 9]`, not the cumulative end offsets `[3, 7, 9]` the claim
predicts. -/
theorem convertToEndOffset_lengths_counterexample :
    evenSlots (convertToEndOffset [3, 10, 4, 11, 2, 12] 9) = [4, 2, 9] ∧
    evenSlots (convertToEndOffset [3, 10, 4, 11, 2, 12] 9) ≠ [3, 7, 9] := by
  constructor <;> decide

/-- C1 (amended): the conversion takes an array whose even slots hold the
tokens' start offsets and rewrites it in place so that even slot `2i`
receives the old value of slot `2(i+1)` — token `i`'s end offset — with the
final even slot set to `lineTextLength`, odd (metadata) slots untouched; in
particular on start offsets `[0, 3, 7]` with total text length 9 the even
slots afterwards are `[3, 7, 9]`. -/
theorem convertToEndOffset_spec (tokens : List Nat) (lineTextLength : Nat) (N : Nat)
    (hlen : tokens.length = 2 * N) (hN : 1 ≤ N) :
    (∀ i, i + 1 < N →
      (convertToEndOffset tokens lineTextLength)[2 * i]? = tokens[2 * (i + 1)]?) ∧
    (convertToEndOffset tokens lineTextLength)[2 * (N - 1)]? = some lineTextLength ∧
    (∀ i, (convertToEndOffset tokens lineTextLength)[2 * i + 1]? = tokens[2 * i + 1]?) ∧
    evenSlots (convertToEndOffset [0, 10, 3, 11, 7, 12] 9) = [3, 7, 9] := by
  have hcount : tokens.length / 2 = N := by omega
  have hlooplen : ∀ m, (convertLoop tokens m).length = tokens.length := by
    intro m
    induction m with
    | zero => rfl
    | succ p ihp => rw [convertLoop_succ, List.length_set, ihp]
  have hget := convertLoop_getElem? tokens N hlen (N - 1) (Nat.le_refl _)
  refine ⟨?_, ?_, ?_, by decide⟩
  · intro i hi
    unfold convertToEndOffset
    have h2 : 2 * (i + 1) = 2 * i + 2 := by ring
    rw [hcount, List.getElem?_set_ne (by omega), hget (2 * i), if_pos ⟨by omega, by omega⟩, h2]
  · unfold convertToEndOffset
    rw [hcount, List.getElem?_set_self (by rw [hlooplen]; omega)]
  · intro i
    unfold convertToEndOffset
    rw [hcount, List.getElem?_set_ne (by omega), hget (2 * i + 1), if_neg (by omega)]

theorem convertToEndOffset_spec_witness :
    ([0, 10, 3, 11, 7, 12] : List Nat).length = 2 * 3 ∧ 1 ≤ 3 ∧
    ((∀ i, i + 1 < 3 →
        (convertToEndOffset [0, 10, 3, 11, 7, 12] 9)[2 * i]? = [0, 10, 3, 11, 7, 12][2 * (i + 1)]?) ∧
      (convertToEndOffset [0, 10, 3, 11, 7, 12] 9)[2 * (3 - 1)]? = some 9 ∧
      (∀ i, (convertToEndOffset [0, 10, 3, 11, 7, 12] 9)[2 * i + 1]? = [0, 10, 3, 11, 7, 12][2 * i + 1]?) ∧
      evenSlots (convertToEndOffset [0, 10, 3, 11, 7, 12] 9) = [3, 7, 9]) :=
  ⟨by decide, by decide, convertToEndOffset_spec [0, 10, 3, 11, 7, 12] 9 3 (by decide) (by decide)⟩

/-- Modelled from the spec: `ViewLineTokenFactory.findIndexInSegmentsArray`
lives in `viewLineToken.ts`, which is not part of this excerpt.  The spec
fixes its result — the index of the token whose half-open range contains
the offset, found through the strictly increasing end offsets — which is
the least index whose end offset exceeds the offset; this helper computes
that least index (`none` when every end offset is at most the offset). -/
def findFirstAbove (ends : List Nat) (offset : Int) : Option Nat :=
  match ends with
  | [] => none
  | e :: rest =>
    if offset < (e : Int) then some 0
    else (findFirstAbove rest offset).map (· + 1)

/-- Modelled from the spec: the search over the packed array.  Per the spec
it returns 0 for `offset ≤ 0`, otherwise the token whose range
`[start, end)` contains the offset — the least index whose end offset
exceeds the offset — and the last token's index when the offset is at or
beyond every end offset.  (The spec prescribes a binary search over the
strictly increasing end offsets; only the result, not the search order, is
modelled.) -/
def findIndexInSegmentsArray (tokens : List Nat) (offset : Int) : Nat :=
  if offset ≤ 0 then 0
  else
    match findFirstAbove (evenSlots tokens) offset with
    | some i => i
    | none => tokens.length / 2 - 1

def LineTokens.findTokenIndexAtOffset (b : LineTokens) (offset : Int) : Nat :=
  findIndexInSegmentsArray b.tokens offset

/-- Strict increase of a list of end offsets, checked adjacently. -/
def strictIncr : List Nat → Bool
  | [] => true
  | [_] => true
  | a :: b :: rest => decide (a < b) && strictIncr (b :: rest)

/-- The token-buffer invariants of the data model: even array length, at
least one token, strictly increasing end offsets, the last end offset equal
to the text length, and (on a non-empty line) a non-empty first token. -/
def LineTokens.WellFormed (b : LineTokens) : Prop :=
  b.tokens.length % 2 = 0 ∧
  1 ≤ b.tokensCount ∧
  strictIncr (evenSlots b.tokens) = true ∧
  (evenSlots b.tokens).getLast? = some b.textLength ∧
  (b.textLength = 0 ∨ 0 < (evenSlots b.tokens).getD 0 0)

theorem strictIncr_adj : ∀ l : List Nat, strictIncr l = true →
    ∀ k, k + 1 < l.length → l.getD k 0 < l.getD (k + 1) 0
  | [] => by intro _ k hk; simp at hk
  | [_] => by intro _ k hk; simp at hk
  | a :: b :: rest => by
    intro h k hk
    rw [strictIncr, Bool.and_eq_true, decide_eq_true_eq] at h
    cases k with
    | zero => simpa using h.1
    | succ m =>
      have := strictIncr_adj (b :: rest) h.2 m (by simpa using hk)
      simpa using this

theorem strictIncr_mono (l : List Nat) (h : strictIncr l = true) :
    ∀ i j, i < j → j < l.length → l.getD i 0 < l.getD j 0 := by
  have adj := strictIncr_adj l h
  have step : ∀ d i, i + d + 1 < l.length → l.getD i 0 < l.getD (i + d + 1) 0 := by
    intro d
    induction d with
    | zero => intro i hi; simpa using adj i hi
    | succ m ihm =>
      intro i hi
      have h1 := ihm i (by omega)
      have h2 := adj (i + m + 1) (by omega)
      have h3 : i + (m + 1) + 1 = (i + m + 1) + 1 := by ring
      rw [h3]
      exact lt_trans h1 h2
  intro i j hij hj
  have hd := step (j - i - 1) i (by omega)
  have heq : i + (j - i - 1) + 1 = j := by omega
  rw [heq] at hd
  exact hd

theorem strictIncr_mono_le (l : List Nat) (h : strictIncr l = true) :
    ∀ i j, i ≤ j → j < l.length → l.getD i 0 ≤ l.getD j 0 := by
  intro i j hij hj
  rcases Nat.eq_or_lt_of_le hij with rfl | hlt
  · exact Nat.le_refl _
  · exact Nat.le_of_lt (strictIncr_mono l h i j hlt hj)

theorem findFirstAbove_some (ends : List Nat) (o : Int) :
    ∀ i, findFirstAbove ends o = some i →
      i < ends.length ∧ o < (ends.getD i 0 : Int) ∧
        ∀ k, k < i → (ends.getD k 0 : Int) ≤ o := by
  induction ends with
  | nil => intro i h; simp [findFirstAbove] at h
  | cons e rest ih =>
    intro i h
    rw [findFirstAbove] at h
    by_cases hlt : o < (e : Int)
    · rw [if_pos hlt] at h
      injection h with h
      subst h
      exact ⟨by simp, by simpa, by omega⟩
    · rw [if_neg hlt] at h
      rcases hmap : findFirstAbove rest o with _ | j
      · rw [hmap] at h; simp at h
      · rw [hmap, Option.map_some'] at h
        injection h with h
        subst h
        obtain ⟨hb, hl, hm⟩ := ih j hmap
        refine ⟨by simpa using hb, by simpa using hl, ?_⟩
        intro k hk
        cases k with
        | zero => simpa using Int.not_lt.mp hlt
        | succ m =>
          have := hm m (by omega)
          simpa using this

theorem findFirstAbove_none_all (ends : List Nat) (o : Int) :
    findFirstAbove ends o = none →
      ∀ k, k < ends.length → (ends.getD k 0 : Int) ≤ o := by
  induction ends with
  | nil => intro _ k hk; simp at hk
  | cons e rest ih =>
    intro h k hk
    rw [findFirstAbove] at h
    by_cases hlt : o < (e : Int)
    · rw [if_pos hlt] at h; exact absurd h (by simp)
    · rw [if_neg hlt] at h
      cases k with
      | zero => simpa using Int.not_lt.mp hlt
      | succ m =>
        have hrest : findFirstAbove rest o = none := by
          rcases hmap : findFirstAbove rest o with _ | j
          · rfl
          · rw [hmap] at h; simp at h
        have := ih hrest m (by simpa using hk)
        simpa using this

theorem findFirstAbove_eq_some (ends : List Nat) (o : Int) :
    ∀ i, i < ends.length → o < (ends.getD i 0 : Int) →
      (∀ k, k < i → (ends.getD k 0 : Int) ≤ o) → findFirstAbove ends o = some i := by
  induction ends with
  | nil => intro i hi; simp at hi
  | cons e rest ih =>
    intro i hi hlt hmin
    rw [findFirstAbove]
    cases i with
    | zero =>
      rw [if_pos (by simpa using hlt)]
    | succ j =>
      have he : (e : Int) ≤ o := by simpa using hmin 0 (by omega)
      rw [if_neg (by omega)]
      have := ih j (by simpa using hi) (by simpa using hlt)
        (fun k hk => by simpa using hmin (k + 1) (by omega))
      rw [this, Option.map_some']

theorem ends_getD (tokens : List Nat) (i : Nat) (hi : i < (evenSlots tokens).length) :
    tokens[2 * i]? = some ((evenSlots tokens).getD i 0) := by
  rw [← evenSlots_getElem?, List.getElem?_eq_getElem hi, List.getD_eq_getElem?_getD,
    List.getElem?_eq_getElem hi]
  rfl

theorem getEndOffset_natCast (b : LineTokens) (i : Nat) :
    b.getEndOffset (i : Int) = b.tokens[2 * i]? := by
  unfold LineTokens.getEndOffset uget
  rw [if_pos (by omega)]
  have h2 : (2 * (i : Int)).toNat = 2 * i := by omega
  rw [h2]

theorem getStartOffset_natCast_succ (b : LineTokens) (i : Nat) :
    b.getStartOffset ((i + 1 : Nat) : Int) = b.tokens[2 * i]? := by
  unfold LineTokens.getStartOffset uget
  rw [if_pos (by omega), if_pos (by omega)]
  have h2 : (2 * (((i + 1 : Nat) : Int) - 1)).toNat = 2 * i := by omega
  rw [h2]

/-- C2: on a well-formed buffer, `findTokenIndexAtOffset o` returns an
index `i` with `startOffset(i) ≤ o` and (`o < endOffset(i)` or
`i = N - 1`) for `o` in `[0, textLength]`; when `o` equals `endOffset(j)`
for a `j < N - 1` it returns `j + 1`; at or beyond the text length it
returns `N - 1`; for `o ≤ 0` it returns 0. -/
instance (b : LineTokens) : Decidable b.WellFormed := by
  unfold LineTokens.WellFormed
  infer_instance

theorem findTokenIndexAtOffset_spec (b : LineTokens) (hwf : b.WellFormed) (o : Int) :
    (0 ≤ o → o ≤ (b.textLength : Int) →
      ∃ s e, b.getStartOffset (b.findTokenIndexAtOffset o : Int) = some s ∧
        b.getEndOffset (b.findTokenIndexAtOffset o : Int) = some e ∧
        (s : Int) ≤ o ∧
        (o < (e : Int) ∨ b.findTokenIndexAtOffset o = b.tokensCount - 1)) ∧
    (∀ j e, j + 1 < b.tokensCount → b.getEndOffset (j : Int) = some e →
      o = (e : Int) → b.findTokenIndexAtOffset o = j + 1) ∧
    ((b.textLength : Int) ≤ o → b.findTokenIndexAtOffset o = b.tokensCount - 1) ∧
    (o ≤ 0 → b.findTokenIndexAtOffset o = 0) := by
  obtain ⟨heven, hN1, hsi, hlast, hhead⟩ := hwf
  have hEndsLen : (evenSlots b.tokens).length = b.tokensCount := by
    rw [evenSlots_length]
    unfold LineTokens.tokensCount
    omega
  have hlastD : (evenSlots b.tokens).getD (b.tokensCount - 1) 0 = b.textLength := by
    rw [List.getLast?_eq_getElem?, hEndsLen] at hlast
    rw [List.getD_eq_getElem?_getD, hlast]
    rfl
  have hone : b.textLength = 0 → b.tokensCount = 1 := by
    intro h0
    by_contra hne
    have hmono := strictIncr_mono (evenSlots b.tokens) hsi 0 (b.tokensCount - 1)
      (by omega) (by omega)
    rw [hlastD, h0] at hmono
    omega
  have hzero : o ≤ 0 → b.findTokenIndexAtOffset o = 0 := by
    intro ho
    unfold LineTokens.findTokenIndexAtOffset findIndexInSegmentsArray
    rw [if_pos ho]
  have hbeyond : (b.textLength : Int) ≤ o → b.findTokenIndexAtOffset o = b.tokensCount - 1 := by
    intro hc
    by_cases ho : o ≤ 0
    · rw [hzero ho, hone (by omega)]
    · have hnone : findFirstAbove (evenSlots b.tokens) o = none := by
        rcases hsome : findFirstAbove (evenSlots b.tokens) o with _ | i
        · rfl
        · obtain ⟨hb2, hlt, _⟩ := findFirstAbove_some _ _ i hsome
          have hle := strictIncr_mono_le _ hsi i (b.tokensCount - 1) (by omega) (by omega)
          rw [hlastD] at hle
          omega
      unfold LineTokens.findTokenIndexAtOffset findIndexInSegmentsArray
      rw [if_neg ho, hnone]
      rfl
  have hboundary : ∀ j e, j + 1 < b.tokensCount → b.getEndOffset (j : Int) = some e →
      o = (e : Int) → b.findTokenIndexAtOffset o = j + 1 := by
    intro j e hj hend heq
    have hjlt : j < (evenSlots b.tokens).length := by omega
    rw [getEndOffset_natCast, ends_getD b.tokens j hjlt] at hend
    injection hend with hend
    have hTpos : 0 < b.textLength := by
      by_contra h0
      have := hone (by omega)
      omega
    have he0 : 0 < (evenSlots b.tokens).getD 0 0 := by
      rcases hhead with h0 | hp
      · omega
      · exact hp
    have hejpos : 0 < (evenSlots b.tokens).getD j 0 := by
      have := strictIncr_mono_le _ hsi 0 j (by omega) (by omega)
      omega
    have ho : ¬ o ≤ 0 := by omega
    have hadj := strictIncr_adj _ hsi j (by omega)
    have hsome := findFirstAbove_eq_some (evenSlots b.tokens) o (j + 1) (by omega)
      (by omega)
      (fun k hk => by
        have := strictIncr_mono_le _ hsi k j (by omega) (by omega)
        omega)
    unfold LineTokens.findTokenIndexAtOffset findIndexInSegmentsArray
    rw [if_neg ho, hsome]
  refine ⟨?_, hboundary, hbeyond, hzero⟩
  intro ho0 hoT
  by_cases ho : o ≤ 0
  · rw [hzero ho]
    refine ⟨0, (evenSlots b.tokens).getD 0 0, ?_, ?_, by omega, ?_⟩
    · unfold LineTokens.getStartOffset
      rw [if_neg (by omega)]
    · rw [getEndOffset_natCast b 0]
      exact ends_getD b.tokens 0 (by omega)
    · by_cases hT : 0 < b.textLength
      · left
        rcases hhead with h0 | hp
        · omega
        · omega
      · right
        rw [hone (by omega)]
  · rcases hsome : findFirstAbove (evenSlots b.tokens) o with _ | i
    · have hF : b.findTokenIndexAtOffset o = b.tokensCount - 1 := by
        unfold LineTokens.findTokenIndexAtOffset findIndexInSegmentsArray
        rw [if_neg ho, hsome]
        rfl
      have hall := findFirstAbove_none_all _ _ hsome
      rw [hF]
      by_cases hc : b.tokensCount - 1 = 0
      · rw [hc]
        refine ⟨0, (evenSlots b.tokens).getD 0 0, ?_, ?_, by omega, Or.inr (by omega)⟩
        · unfold LineTokens.getStartOffset
          rw [if_neg (by omega)]
        · rw [getEndOffset_natCast b 0]
          exact ends_getD b.tokens 0 (by omega)
      · have hm : b.tokensCount - 1 = (b.tokensCount - 2) + 1 := by omega
        rw [hm]
        refine ⟨(evenSlots b.tokens).getD (b.tokensCount - 2) 0,
          (evenSlots b.tokens).getD (b.tokensCount - 1) 0, ?_, ?_, ?_, Or.inr rfl⟩
        · rw [getStartOffset_natCast_succ b (b.tokensCount - 2)]
          exact ends_getD b.tokens (b.tokensCount - 2) (by omega)
        · rw [getEndOffset_natCast b ((b.tokensCount - 2) + 1)]
          have h22 : 2 * ((b.tokensCount - 2) + 1) = 2 * (b.tokensCount - 1) := by omega
          rw [h22]
          exact ends_getD b.tokens (b.tokensCount - 1) (by omega)
        · have := hall (b.tokensCount - 2) (by omega)
          omega
    · obtain ⟨hb2, hlt, hmin⟩ := findFirstAbove_some _ _ i hsome
      have hF : b.findTokenIndexAtOffset o = i := by
        unfold LineTokens.findTokenIndexAtOffset findIndexInSegmentsArray
        rw [if_neg ho, hsome]
      rw [hF]
      cases i with
      | zero =>
        refine ⟨0, (evenSlots b.tokens).getD 0 0, ?_, ?_, by omega, Or.inl hlt⟩
        · unfold LineTokens.getStartOffset
          rw [if_neg (by omega)]
        · rw [getEndOffset_natCast b 0]
          exact ends_getD b.tokens 0 (by omega)
      | succ m =>
        refine ⟨(evenSlots b.tokens).getD m 0, (evenSlots b.tokens).getD (m + 1) 0,
          ?_, ?_, ?_, Or.inl hlt⟩
        · rw [getStartOffset_natCast_succ b m]
          exact ends_getD b.tokens m (by omega)
        · rw [getEndOffset_natCast b (m + 1)]
          exact ends_getD b.tokens (m + 1) (by omega)
        · have := hmin m (by omega)
          omega

theorem findTokenIndexAtOffset_spec_witness :
    (LineTokens.mk [3, 100, 7, 200, 9, 300] "abcdefghi").WellFormed ∧
    ((0 ≤ (4 : Int) →
        (4 : Int) ≤ ((LineTokens.mk [3, 100, 7, 200, 9, 300] "abcdefghi").textLength : Int) →
        ∃ s e, (LineTokens.mk [3, 100, 7, 200, 9, 300] "abcdefghi").getStartOffset
            ((LineTokens.mk [3, 100, 7, 200, 9, 300] "abcdefghi").findTokenIndexAtOffset 4 : Int) = some s ∧
          (LineTokens.mk [3, 100, 7, 200, 9, 300] "abcdefghi").getEndOffset
            ((LineTokens.mk [3, 100, 7, 200, 9, 300] "abcdefghi").findTokenIndexAtOffset 4 : Int) = some e ∧
          (s : Int) ≤ 4 ∧
          ((4 : Int) < (e : Int) ∨
            (LineTokens.mk [3, 100, 7, 200, 9, 300] "abcdefghi").findTokenIndexAtOffset 4 =
              (LineTokens.mk [3, 100, 7, 200, 9, 300] "abcdefghi").tokensCount - 1)) ∧
      (∀ j e, j + 1 < (LineTokens.mk [3, 100, 7, 200, 9, 300] "abcdefghi").tokensCount →
        (LineTokens.mk [3, 100, 7, 200, 9, 300] "abcdefghi").getEndOffset (j : Int) = some e →
        (4 : Int) = (e : Int) →
        (LineTokens.mk [3, 100, 7, 200, 9, 300] "abcdefghi").findTokenIndexAtOffset 4 = j + 1) ∧
      (((LineTokens.mk [3, 100, 7, 200, 9, 300] "abcdefghi").textLength : Int) ≤ (4 : Int) →
        (LineTokens.mk [3, 100, 7, 200, 9, 300] "abcdefghi").findTokenIndexAtOffset 4 =
          (LineTokens.mk [3, 100, 7, 200, 9, 300] "abcdefghi").tokensCount - 1) ∧
      ((4 : Int) ≤ 0 →
        (LineTokens.mk [3, 100, 7, 200, 9, 300] "abcdefghi").findTokenIndexAtOffset 4 = 0)) :=
  ⟨by decide, findTokenIndexAtOffset_spec (LineTokens.mk [3, 100, 7, 200, 9, 300] "abcdefghi")
    (by decide) 4⟩

/-- Modelled from the spec: the `TokenMetadata` codec of
`tokensBinaryEncoding.ts` is not part of this excerpt.  The spec fixes the
scheme — five non-overlapping bit fields shifted and ORed into one 32-bit
word — but leaves widths and offsets as an encoding-table detail; this
development fixes languageId at bits 0-7, tokenType at 8-10, fontStyle at
11-13, foreground at 14-22 and background at 23-31. -/
def encodeMetadata (languageId tokenType fontStyle foreground background : Nat) : Nat :=
  (languageId <<< 0 ||| tokenType <<< 8 ||| fontStyle <<< 11 |||
    foreground <<< 14 ||| background <<< 23) % 2 ^ 32

/-- Modelled from the spec: decoding of a field is independent of the
others, by shifting then masking. -/
def getLanguageId (w : Nat) : Nat := (w >>> 0) &&& 255

/-- Modelled from the spec: see `getLanguageId`. -/
def getTokenType (w : Nat) : Nat := (w >>> 8) &&& 7

/-- Modelled from the spec: see `getLanguageId`. -/
def getFontStyle (w : Nat) : Nat := (w >>> 11) &&& 7

/-- Modelled from the spec: see `getLanguageId`. -/
def getForeground (w : Nat) : Nat := (w >>> 14) &&& 511

/-- Modelled from the spec: see `getLanguageId`. -/
def getBackground (w : Nat) : Nat := (w >>> 23) &&& 511

theorem encodeMetadata_eq_sum (L T F G B : Nat)
    (h1 : L < 2 ^ 8) (h2 : T < 2 ^ 3) (h3 : F < 2 ^ 3)
    (h4 : G < 2 ^ 9) (h5 : B < 2 ^ 9) :
    encodeMetadata L T F G B =
      L + 2 ^ 8 * T + 2 ^ 11 * F + 2 ^ 14 * G + 2 ^ 23 * B := by
  unfold encodeMetadata
  rw [Nat.shiftLeft_eq, Nat.shiftLeft_eq, Nat.shiftLeft_eq, Nat.shiftLeft_eq,
    Nat.shiftLeft_eq]
  have c1 : L * 2 ^ 0 ||| T * 2 ^ 8 = 2 ^ 8 * T + L := by
    rw [Nat.pow_zero, Nat.mul_one, Nat.mul_comm T (2 ^ 8), Nat.lor_comm]
    exact (Nat.mul_add_lt_is_or h1 T).symm
  have b1 : 2 ^ 8 * T + L < 2 ^ 11 := by
    have hm := Nat.mul_le_mul (Nat.le_refl (2 ^ 8)) h2
    calc 2 ^ 8 * T + L < 2 ^ 8 * T + 2 ^ 8 := Nat.add_lt_add_left h1 _
      _ = 2 ^ 8 * (T + 1) := by ring
      _ ≤ 2 ^ 8 * 2 ^ 3 := hm
      _ = 2 ^ 11 := by norm_num
  have c2 : (2 ^ 8 * T + L) ||| F * 2 ^ 11 = 2 ^ 11 * F + (2 ^ 8 * T + L) := by
    rw [Nat.mul_comm F (2 ^ 11), Nat.lor_comm]
    exact (Nat.mul_add_lt_is_or b1 F).symm
  have b2 : 2 ^ 11 * F + (2 ^ 8 * T + L) < 2 ^ 14 := by
    have hm := Nat.mul_le_mul (Nat.le_refl (2 ^ 11)) h3
    calc 2 ^ 11 * F + (2 ^ 8 * T + L) < 2 ^ 11 * F + 2 ^ 11 := Nat.add_lt_add_left b1 _
      _ = 2 ^ 11 * (F + 1) := by ring
      _ ≤ 2 ^ 11 * 2 ^ 3 := hm
      _ = 2 ^ 14 := by norm_num
  have c3 : (2 ^ 11 * F + (2 ^ 8 * T + L)) ||| G * 2 ^ 14 =
      2 ^ 14 * G + (2 ^ 11 * F + (2 ^ 8 * T + L)) := by
    rw [Nat.mul_comm G (2 ^ 14), Nat.lor_comm]
    exact (Nat.mul_add_lt_is_or b2 G).symm
  have b3 : 2 ^ 14 * G + (2 ^ 11 * F + (2 ^ 8 * T + L)) < 2 ^ 23 := by
    have hm := Nat.mul_le_mul (Nat.le_refl (2 ^ 14)) h4
    calc 2 ^ 14 * G + (2 ^ 11 * F + (2 ^ 8 * T + L)) < 2 ^ 14 * G + 2 ^ 14 :=
        Nat.add_lt_add_left b2 _
      _ = 2 ^ 14 * (G + 1) := by ring
      _ ≤ 2 ^ 14 * 2 ^ 9 := hm
      _ = 2 ^ 23 := by norm_num
  have c4 : (2 ^ 14 * G + (2 ^ 11 * F + (2 ^ 8 * T + L))) ||| B * 2 ^ 23 =
      2 ^ 23 * B + (2 ^ 14 * G + (2 ^ 11 * F + (2 ^ 8 * T + L))) := by
    rw [Nat.mul_comm B (2 ^ 23), Nat.lor_comm]
    exact (Nat.mul_add_lt_is_or b3 B).symm
  have b4 : 2 ^ 23 * B + (2 ^ 14 * G + (2 ^ 11 * F + (2 ^ 8 * T + L))) < 2 ^ 32 := by
    have hm := Nat.mul_le_mul (Nat.le_refl (2 ^ 23)) h5
    calc 2 ^ 23 * B + (2 ^ 14 * G + (2 ^ 11 * F + (2 ^ 8 * T + L))) < 2 ^ 23 * B + 2 ^ 23 :=
        Nat.add_lt_add_left b3 _
      _ = 2 ^ 23 * (B + 1) := by ring
      _ ≤ 2 ^ 23 * 2 ^ 9 := hm
      _ = 2 ^ 32 := by norm_num
  rw [c1, c2, c3, c4, Nat.mod_eq_of_lt b4]
  ring

/-- C8: for field values within their bit widths, each decoder recovers its
own field from the encoded word, independently of the other four fields'
values. -/
theorem metadata_roundtrip (L T F G B : Nat)
    (h1 : L < 2 ^ 8) (h2 : T < 2 ^ 3) (h3 : F < 2 ^ 3)
    (h4 : G < 2 ^ 9) (h5 : B < 2 ^ 9) :
    getLanguageId (encodeMetadata L T F G B) = L ∧
    getTokenType (encodeMetadata L T F G B) = T ∧
    getFontStyle (encodeMetadata L T F G B) = F ∧
    getForeground (encodeMetadata L T F G B) = G ∧
    getBackground (encodeMetadata L T F G B) = B := by
  have hsum := encodeMetadata_eq_sum L T F G B h1 h2 h3 h4 h5
  unfold getLanguageId getTokenType getFontStyle getForeground getBackground
  rw [hsum]
  rw [show (255 : Nat) = 2 ^ 8 - 1 from by norm_num]
  simp only [show (7 : Nat) = 2 ^ 3 - 1 from by norm_num,
    show (511 : Nat) = 2 ^ 9 - 1 from by norm_num]
  simp only [Nat.shiftRight_eq_div_pow, Nat.and_pow_two_sub_one_eq_mod]
  norm_num at h1 h2 h3 h4 h5 ⊢
  omega

theorem metadata_roundtrip_witness :
    (3 : Nat) < 2 ^ 8 ∧ (2 : Nat) < 2 ^ 3 ∧ (5 : Nat) < 2 ^ 3 ∧
    (17 : Nat) < 2 ^ 9 ∧ (9 : Nat) < 2 ^ 9 ∧
    (getLanguageId (encodeMetadata 3 2 5 17 9) = 3 ∧
      getTokenType (encodeMetadata 3 2 5 17 9) = 2 ∧
      getFontStyle (encodeMetadata 3 2 5 17 9) = 5 ∧
      getForeground (encodeMetadata 3 2 5 17 9) = 17 ∧
      getBackground (encodeMetadata 3 2 5 17 9) = 9) :=
  ⟨by decide, by decide, by decide, by decide, by decide,
    metadata_roundtrip 3 2 5 17 9 (by decide) (by decide) (by decide) (by decide) (by decide)⟩

/-- Modelled from the spec: `ViewLineTokenFactory.sliceAndInflate` lives in
`viewLineToken.ts`, which is not part of this excerpt.  Per the spec it
materializes the tokens intersecting `[startOffset, endOffset)`: each
intersecting token is clipped to the slice edges, shifted by `deltaOffset`
and emitted as a `(start, end, metadata)` descriptor; tokens fully outside
the slice and empty results after clipping are excluded. -/
def sliceAndInflate (tokens : List Nat) (startOffset endOffset deltaOffset : Nat) :
    List (Nat × Nat × Nat) :=
  (List.range (tokens.length / 2)).filterMap fun i =>
    let s := max (if i = 0 then 0 else tokens.getD (2 * (i - 1)) 0) startOffset
    let e := min (tokens.getD (2 * i) 0) endOffset
    if s < e then some (s + deltaOffset, e + deltaOffset, tokens.getD (2 * i + 1) 0)
    else none

/-- C9: `sliceAndInflate` yields exactly the descriptors of tokens whose
ranges intersect the slice, clipped to the slice edges and shifted by the
delta; in particular over end offsets `[3, 7, 9]` the slice `[2, 5)` with
delta 0 yields descriptors covering `[2, 3)` and `[3, 5)` and excludes the
third token. -/
theorem sliceAndInflate_spec :
    sliceAndInflate [3, 100, 7, 200, 9, 300] 2 5 0 = [(2, 3, 100), (3, 5, 200)] ∧
    ∀ (tokens : List Nat) (startOffset endOffset deltaOffset : Nat) (p : Nat × Nat × Nat),
      p ∈ sliceAndInflate tokens startOffset endOffset deltaOffset ↔
      ∃ i, i < tokens.length / 2 ∧
        max (if i = 0 then 0 else tokens.getD (2 * (i - 1)) 0) startOffset <
          min (tokens.getD (2 * i) 0) endOffset ∧
        p = (max (if i = 0 then 0 else tokens.getD (2 * (i - 1)) 0) startOffset + deltaOffset,
          min (tokens.getD (2 * i) 0) endOffset + deltaOffset,
          tokens.getD (2 * i + 1) 0) := by
  refine ⟨by decide, ?_⟩
  intro tokens so eo d p
  rw [sliceAndInflate]
  simp only [List.mem_filterMap, List.mem_range, Option.ite_none_right_eq_some,
    Option.some.injEq]
  constructor
  · rintro ⟨i, hi, hcond, hp⟩
    exact ⟨i, hi, hcond, hp.symm⟩
  · rintro ⟨i, hi, hcond, hp⟩
    exact ⟨i, hi, hcond, hp.symm⟩

end VSCode
